import Mathlib

/-!
Verification of the `Vec` permutation/sequence toolkit (`src/vec.h`).

A C++ `std::vector` accessed through indices is modeled as a total function
`Nat → α` together with an explicit length `n`; every operation of the source
reads and writes positions in `[0, n)` only.  Loops whose exit condition is
data dependent (the cycle-walking `while` loops and the destructive scan,
which can diverge on a non-bijective permutation) are embedded with explicit
fuel and return `Option`; `none` stands for fuel exhaustion, and we prove that
for bijective permutations the chosen fuel always suffices.  The destructive
variant stores indices as `Int` so that the out-of-domain sentinel written by
`std::swap(order_begin[d], d2 = (diff_t) -1)` is the literal `-1`.
The list utilities (`sort_indices`, `remove_intersection`, `RemoveDuplicates`)
are embedded on `List` directly.
-/

namespace Vec

universe u

variable {α : Type u}

/-- The permutation argument is a bijection on `[0, n)`: it maps the range
into itself and is injective there. -/
def BijOn (o : Nat → Nat) (n : Nat) : Prop :=
  (∀ i, i < n → o i < n) ∧ ∀ i, i < n → ∀ j, j < n → o i = o j → i = j

instance (o : Nat → Nat) (n : Nat) : Decidable (BijOn o n) := by
  unfold BijOn; infer_instance

/-- Single store `v[a] = x` on a sequence modeled as a function. -/
def setF (v : Nat → α) (a : Nat) (x : α) : Nat → α :=
  fun m => if m = a then x else v m

/-- `std::swap(v[a], v[b])`. -/
def swapF (v : Nat → α) (a b : Nat) : Nat → α :=
  fun m => if m = a then v b else if m = b then v a else v m

/-- `done[j] = true` on the `std::vector<bool>` marker of `Vec::reorder`. -/
def setB (done : Nat → Bool) (j : Nat) : Nat → Bool :=
  fun m => if m = j then true else done m

/-- Inner `while (i != j)` loop of `Vec::reorder` (src/vec.h:53-59):
repeatedly `swap(v[prev_j], v[j]); done[j] = true; prev_j = j; j = order[j]`
until `j` returns to the cycle start `i`.  Fuel-indexed because a
non-bijective `order` could loop forever. -/
def cycleLoop (order : Nat → Nat) (i : Nat) :
    Nat → (Nat → α) → (Nat → Bool) → Nat → Nat → Option ((Nat → α) × (Nat → Bool))
  | 0, _, _, _, _ => none
  | fuel + 1, v, done, prevJ, j =>
    if i = j then some (v, done)
    else cycleLoop order i fuel (swapF v prevJ j) (setB done j) j (order j)

/-- Outer `for (i = 0; i < v.size(); ++i)` loop of `Vec::reorder`
(src/vec.h:44-60): skip `done` positions, otherwise mark `i` and walk its
cycle.  The `order` vector is part of the threaded state (the source takes it
by reference); no statement of the source writes to it. -/
def reorderFrom (order : Nat → Nat) (n : Nat) :
    Nat → Nat → (Nat → α) → (Nat → Bool) → Option ((Nat → α) × (Nat → Nat))
  | 0, _, _, _ => none
  | fuel + 1, i, v, done =>
    if i < n then
      if done i then reorderFrom order n fuel (i + 1) v done
      else
        match cycleLoop order i n v (setB done i) i (order i) with
        | none => none
        | some (v', done') => reorderFrom order n fuel (i + 1) v' done'
    else some (v, order)

/-- `Vec::reorder(v, order)` (src/vec.h:41-62), on a sequence of length `n`.
The `done` marker array starts all-`false`; the outer loop index starts at 0.
Returns the final values of the two reference parameters `(v, order)`. -/
def reorder (n : Nat) (v : Nat → α) (order : Nat → Nat) :
    Option ((Nat → α) × (Nat → Nat)) :=
  reorderFrom order n (n + 1) 0 v (fun _ => false)

/-- Inner `for (index_t d2; d != s; d = d2)` loop of
`Vec::reorder_destructive` (src/vec.h:82-86): while `d ≠ s`,
`swap(temp, v[d]); swap(order[d], d2 = -1); --remaining; d = d2`. -/
def destrCycle (s : Nat) :
    Nat → (Nat → α) → (Nat → Int) → Int → Int → α →
      Option ((Nat → α) × (Nat → Int) × Int × α)
  | 0, _, _, _, _, _ => none
  | fuel + 1, v, order, remaining, d, temp =>
    if d = (s : Int) then some (v, order, remaining, temp)
    else
      destrCycle s fuel (setF v d.toNat temp) (setF order d.toNat (-1))
        (remaining - 1) (order d.toNat) (v d.toNat)

/-- Outer `for (index_t s = index_t(); remaining > 0; ++s)` loop of
`Vec::reorder_destructive` (src/vec.h:77-88): stop once `remaining ≤ 0`,
skip entries already overwritten with `-1`, otherwise
`--remaining; temp = v[s]; ⟨inner loop⟩; v[s] = temp`. -/
def destrLoop (n : Nat) :
    Nat → Nat → (Nat → α) → (Nat → Int) → Int →
      Option ((Nat → α) × (Nat → Int))
  | 0, _, _, _, _ => none
  | fuel + 1, s, v, order, remaining =>
    if remaining ≤ 0 then some (v, order)
    else
      if order s = -1 then destrLoop n fuel (s + 1) v order remaining
      else
        match destrCycle s (n + 1) v order (remaining - 1) (order s) (v s) with
        | none => none
        | some (v', order', rem', temp') =>
          destrLoop n fuel (s + 1) (setF v' s temp') order' rem'

/-- `Vec::reorder_destructive(order_begin, order_end, v)` (src/vec.h:70-89)
with `order_end - order_begin = n`: `remaining` starts at
`order_end - 1 - order_begin = n - 1` (a signed `diff_t`, hence `Int`).
Returns the final values of `(v, order)`. -/
def reorder_destructive (n : Nat) (order : Nat → Int) (v : Nat → α) :
    Option ((Nat → α) × (Nat → Int)) :=
  destrLoop n (n + 1) 0 v order ((n : Int) - 1)

/-- `Vec::sort_indices(v)` (src/vec.h:21-34): `idx = [0, …, v.size())` put
through `std::stable_sort` with comparator `v[i1] < v[i2]`.  A stable sort
with a strict comparator `lt` is a stable merge sort with the non-strict
`le i1 i2 = ¬ lt i2 i1`, which is how `List.mergeSort` takes its argument. -/
def sort_indices [LinearOrder α] [Inhabited α] (v : List α) : List Nat :=
  (List.range v.length).mergeSort (fun i1 i2 => !decide (v[i2]! < v[i1]!))

/-- `Vec::remove_intersection(a, b)` (src/vec.h:96-105): a multiset `st`
collects all elements of `a` and of `b`; `remove_if`/`erase` then drops from
`a` every element `k` with `st.count(k) > 1`.  The symmetric erase on `b` is
commented out in the source, so `b` is returned unchanged.  Returns the final
values of the two reference parameters `(a, b)`. -/
def remove_intersection [DecidableEq α] (a b : List α) : List α × List α :=
  let st := a ++ b
  (a.filter (fun k => !decide (1 < st.count k)), b)

/-- The stateful `remove_if` pass of `Vec::RemoveDuplicates`
(src/vec.h:117-124): scan `v` left to right, drop an element iff it is in
`seen`, otherwise keep it and insert it into `seen`. -/
def removeDupsGo [DecidableEq α] : List α → List α → List α
  | [], _ => []
  | x :: xs, seen =>
    if x ∈ seen then removeDupsGo xs seen else x :: removeDupsGo xs (x :: seen)

/-- `Vec::RemoveDuplicates(v)` (src/vec.h:112-129): erase the elements marked
by the `seen`-set pass (starting from an empty `seen`), return the vector's
new contents together with its new size. -/
def RemoveDuplicates [DecidableEq α] (v : List α) : List α × Nat :=
  let v' := removeDupsGo v []
  (v', v'.length)

/-! ### Elementary facts about bijections on `[0, n)` and their iterates -/

theorem iterate_mem (h : BijOn o n) {i : Nat} (hi : i < n) (t : Nat) :
    o^[t] i < n := by
  induction t with
  | zero => exact hi
  | succ t ih => rw [Function.iterate_succ_apply']; exact h.1 _ ih

theorem iterate_cancel (h : BijOn o n) {x y : Nat} (hx : x < n) (hy : y < n) :
    ∀ k, o^[k] x = o^[k] y → x = y := by
  intro k
  induction k with
  | zero => exact id
  | succ k ih =>
    intro hk
    rw [Function.iterate_succ_apply', Function.iterate_succ_apply'] at hk
    exact ih (h.2 _ (iterate_mem h hx k) _ (iterate_mem h hy k) hk)

theorem returning_of_iterate_eq (h : BijOn o n) {i a b : Nat} (hi : i < n)
    (hab : a < b) (heq : o^[a] i = o^[b] i) : o^[b - a] i = i := by
  have hb : o^[b] i = o^[a] (o^[b - a] i) := by
    rw [← Function.iterate_add_apply]
    congr 1
    omega
  exact iterate_cancel h (iterate_mem h hi _) hi a (by rw [← hb, ← heq])

theorem exists_returning (h : BijOn o n) {i : Nat} (hi : i < n) :
    ∃ L, 0 < L ∧ L ≤ n ∧ o^[L] i = i := by
  obtain ⟨a, ha, b, hb, hne, heq⟩ :=
    Finset.exists_ne_map_eq_of_card_lt_of_maps_to (s := Finset.range (n + 1))
      (t := Finset.range n) (by simp)
      (fun t _ => Finset.mem_range.mpr (iterate_mem h hi t))
  simp only [Finset.mem_range] at ha hb
  rcases Nat.lt_or_ge a b with hab | hab
  · exact ⟨b - a, by omega, by omega, returning_of_iterate_eq h hi hab heq⟩
  · have hba : b < a := by omega
    exact ⟨a - b, by omega, by omega, returning_of_iterate_eq h hi hba heq.symm⟩

theorem exists_min_period (h : BijOn o n) {i : Nat} (hi : i < n) :
    ∃ L, 0 < L ∧ L ≤ n ∧ o^[L] i = i ∧ ∀ t, 0 < t → t < L → o^[t] i ≠ i := by
  obtain ⟨L0, hL0, hL0n, hL0i⟩ := exists_returning h hi
  have hex : ∃ L, 0 < L ∧ o^[L] i = i := ⟨L0, hL0, hL0i⟩
  refine ⟨Nat.find hex, (Nat.find_spec hex).1, ?_, (Nat.find_spec hex).2, ?_⟩
  · exact le_trans (Nat.find_le ⟨hL0, hL0i⟩) hL0n
  · intro t ht htL hti
    exact Nat.find_min hex htL ⟨ht, hti⟩

theorem iterate_ne (h : BijOn o n) {i L : Nat} (hi : i < n)
    (hmin : ∀ t, 0 < t → t < L → o^[t] i ≠ i) {a b : Nat} (hab : a < b)
    (hbL : b < L) : o^[a] i ≠ o^[b] i := by
  intro heq
  exact hmin (b - a) (by omega) (by omega) (returning_of_iterate_eq h hi hab heq)

/-- If a predicate is closed under one application of `o` (inside the range)
and fails at `s`, it fails on the whole forward orbit of `s`: stepping
`t·L - t` more times wraps the orbit around to `s` itself. -/
theorem orbit_not_mem_of_closed (h : BijOn o n) {P : Nat → Prop}
    (hcl : ∀ m, m < n → P m → P (o m)) {s : Nat} (hs : s < n) (hP : ¬ P s)
    {L : Nat} (hL : 0 < L) (hLs : o^[L] s = s) : ∀ t, ¬ P (o^[t] s) := by
  have step : ∀ u t, P (o^[t] s) → P (o^[t + u] s) := by
    intro u
    induction u with
    | zero => intro t ht; exact ht
    | succ u ih =>
      intro t ht
      have h1 := hcl _ (iterate_mem h hs _) (ih t ht)
      have h2 : t + (u + 1) = t + u + 1 := by omega
      rw [h2, Function.iterate_succ_apply']
      exact h1
  have period_mul : ∀ k, o^[k * L] s = s := by
    intro k
    induction k with
    | zero => simp
    | succ k ih => rw [Nat.succ_mul, Function.iterate_add_apply, hLs, ih]
  intro t hPt
  have h1 : P (o^[t + (t * L - t)] s) := step _ _ hPt
  have ht : t + (t * L - t) = t * L := by
    have : t ≤ t * L := Nat.le_mul_of_pos_right t hL
    omega
  rw [ht, period_mul t] at h1
  exact hP h1

/-! ### Evaluation lemmas for the store/swap helpers -/

theorem setF_self (v : Nat → α) (a : Nat) (x : α) : setF v a x a = x := by
  simp [setF]

theorem setF_other (v : Nat → α) (a : Nat) (x : α) {m : Nat} (hma : m ≠ a) :
    setF v a x m = v m := by
  simp [setF, hma]

theorem swapF_left (v : Nat → α) (a b : Nat) : swapF v a b a = v b := by
  simp [swapF]

theorem swapF_right (v : Nat → α) {a b : Nat} (hba : b ≠ a) : swapF v a b b = v a := by
  simp [swapF, hba]

theorem swapF_other (v : Nat → α) {a b m : Nat} (hma : m ≠ a) (hmb : m ≠ b) :
    swapF v a b m = v m := by
  simp [swapF, hma, hmb]

theorem setB_self (done : Nat → Bool) (j : Nat) : setB done j j = true := by
  simp [setB]

theorem setB_other (done : Nat → Bool) {j m : Nat} (hmj : m ≠ j) :
    setB done j m = done m := by
  simp [setB, hmj]

/-! ### Correctness of `Vec::reorder` (cycle rotation with a `done` array) -/

/-- Running the inner loop of `reorder` from the intermediate state
`prev_j = o^[k] i`, `j = o^[k+1] i` (with `r = L - k - 1` iterations left,
`L` the minimal period of `i`) rotates the remaining part of the cycle:
position `o^[t] i` receives the value of `o^[t+1] i` for `k ≤ t < L - 1`,
position `o^[L-1] i` receives the value of `o^[k] i`, every visited position
is marked done, and nothing else changes. -/
theorem cycleLoop_go (h : BijOn o n) {i L : Nat}
    (hi : i < n) (hLi : o^[L] i = i)
    (hmin : ∀ t, 0 < t → t < L → o^[t] i ≠ i) :
    ∀ r k, k + r + 1 = L → ∀ fuel, r + 1 ≤ fuel → ∀ (v : Nat → α) (done : Nat → Bool),
      ∃ V D, cycleLoop o i fuel v done (o^[k] i) (o^[k + 1] i) = some (V, D)
        ∧ (∀ t, k ≤ t → t + 1 < L → V (o^[t] i) = v (o^[t + 1] i))
        ∧ V (o^[L - 1] i) = v (o^[k] i)
        ∧ (∀ m, (∀ t, k ≤ t → t < L → m ≠ o^[t] i) → V m = v m)
        ∧ (∀ t, k < t → t < L → D (o^[t] i) = true)
        ∧ (∀ m, (∀ t, k < t → t < L → m ≠ o^[t] i) → D m = done m) := by
  intro r
  induction r with
  | zero =>
    intro k hk fuel hfuel v done
    obtain ⟨f, rfl⟩ : ∃ f, fuel = f + 1 := ⟨fuel - 1, by omega⟩
    have hki : o^[k + 1] i = i := by rw [show k + 1 = L by omega, hLi]
    refine ⟨v, done, ?_, ?_, ?_, fun m _ => rfl, ?_, fun m _ => rfl⟩
    · simp only [cycleLoop]
      rw [hki, if_pos rfl]
    · intro t hkt ht1
      omega
    · rw [show L - 1 = k by omega]
    · intro t hkt htL
      omega
  | succ r ih =>
    intro k hk fuel hfuel v done
    obtain ⟨f, rfl⟩ : ∃ f, fuel = f + 1 := ⟨fuel - 1, by omega⟩
    have hk1L : k + 1 < L := by omega
    have hne : i ≠ o^[k + 1] i := fun heq => hmin (k + 1) (by omega) hk1L heq.symm
    have hd : ∀ p q, p < q → q < L → o^[p] i ≠ o^[q] i :=
      fun p q hpq hqL => iterate_ne h hi hmin hpq hqL
    have hiter : o (o^[k + 1] i) = o^[k + 1 + 1] i :=
      (Function.iterate_succ_apply' o (k + 1) i).symm
    have hstep : cycleLoop o i (f + 1) v done (o^[k] i) (o^[k + 1] i)
        = cycleLoop o i f (swapF v (o^[k] i) (o^[k + 1] i)) (setB done (o^[k + 1] i))
            (o^[k + 1] i) (o^[k + 1 + 1] i) := by
      simp only [cycleLoop]
      rw [if_neg hne, hiter]
    obtain ⟨V, D, hrun, hV1, hV2, hV3, hD1, hD2⟩ :=
      ih (k + 1) (by omega) f (by omega) (swapF v (o^[k] i) (o^[k + 1] i))
        (setB done (o^[k + 1] i))
    refine ⟨V, D, by rw [hstep]; exact hrun, ?_, ?_, ?_, ?_, ?_⟩
    · intro t hkt ht1
      rcases eq_or_lt_of_le hkt with rfl | hkt'
      · have hm : ∀ t', k + 1 ≤ t' → t' < L → o^[k] i ≠ o^[t'] i :=
          fun t' h1 h2 => hd k t' (by omega) h2
        rw [hV3 _ hm, swapF_left]
      · rw [hV1 t (by omega) ht1]
        have h1 : o^[t + 1] i ≠ o^[k] i := Ne.symm (hd k (t + 1) (by omega) (by omega))
        have h2 : o^[t + 1] i ≠ o^[k + 1] i := Ne.symm (hd (k + 1) (t + 1) (by omega) (by omega))
        rw [swapF_other v h1 h2]
    · rw [hV2]
      have hab : o^[k + 1] i ≠ o^[k] i := Ne.symm (hd k (k + 1) (by omega) hk1L)
      rw [swapF_right v hab]
    · intro m hm
      rw [hV3 m (fun t' h1 h2 => hm t' (by omega) h2)]
      have h1 : m ≠ o^[k] i := hm k le_rfl (by omega)
      have h2 : m ≠ o^[k + 1] i := hm (k + 1) (by omega) hk1L
      rw [swapF_other v h1 h2]
    · intro t hkt htL
      rcases eq_or_lt_of_le (show k + 1 ≤ t by omega) with rfl | hkt'
      · rw [hD2 _ (fun t' h1 h2 => hd (k + 1) t' h1 h2), setB_self]
      · exact hD1 t (by omega) htL
    · intro m hm
      rw [hD2 m (fun t' h1 h2 => hm t' (by omega) h2)]
      have h1 : m ≠ o^[k + 1] i := hm (k + 1) (by omega) hk1L
      rw [setB_other done h1]

/-- Full run of the inner loop of `reorder` from the start of the cycle of
`i`: afterwards every position `m` on the cycle holds the old value of
`o m`, every cycle position other than `i` is marked done, and nothing else
changes. -/
theorem cycleLoop_spec (h : BijOn o n) {i L : Nat} (hi : i < n) (hL0 : 0 < L)
    (hLn : L ≤ n) (hLi : o^[L] i = i)
    (hmin : ∀ t, 0 < t → t < L → o^[t] i ≠ i) (v : Nat → α) (done : Nat → Bool) :
    ∃ V D, cycleLoop o i n v done i (o i) = some (V, D)
      ∧ (∀ t, t < L → V (o^[t] i) = v (o (o^[t] i)))
      ∧ (∀ m, (∀ t, t < L → m ≠ o^[t] i) → V m = v m)
      ∧ (∀ t, 0 < t → t < L → D (o^[t] i) = true)
      ∧ (∀ m, (∀ t, 0 < t → t < L → m ≠ o^[t] i) → D m = done m) := by
  obtain ⟨V, D, hrun, hV1, hV2, hV3, hD1, hD2⟩ :=
    cycleLoop_go h hi hLi hmin (L - 1) 0 (by omega) n (by omega) v done
  refine ⟨V, D, hrun, ?_, fun m hm => hV3 m (fun t _ h2 => hm t h2), hD1, hD2⟩
  intro t htL
  rcases Nat.lt_or_ge (t + 1) L with h1 | h1
  · rw [hV1 t (Nat.zero_le t) h1, Function.iterate_succ_apply']
  · have ht : t = L - 1 := by omega
    have ho : o (o^[L - 1] i) = i := by
      have he : o (o^[L - 1] i) = o^[L - 1 + 1] i :=
        (Function.iterate_succ_apply' o (L - 1) i).symm
      rw [he, show L - 1 + 1 = L by omega, hLi]
    rw [ht, hV2, ho, Function.iterate_zero_apply]

/-- Main loop invariant of `reorder`: if `done` marks an `o`-closed set of
positions that already hold their final (gathered) values, everything below
the loop counter is done, and undone positions are untouched, then the loop
completes and gathers the whole sequence. -/
theorem reorderFrom_spec (h : BijOn o n) (v₀ : Nat → α) :
    ∀ fuel i (v : Nat → α) (done : Nat → Bool),
      n - i + 1 ≤ fuel →
      (∀ m, m < n → done m = true → v m = v₀ (o m)) →
      (∀ m, m < n → done m = false → v m = v₀ m) →
      (∀ m, n ≤ m → v m = v₀ m) →
      (∀ m, m < n → done m = true → done (o m) = true) →
      (∀ m, m < i → m < n → done m = true) →
      ∃ V, reorderFrom o n fuel i v done = some (V, o)
        ∧ (∀ m, m < n → V m = v₀ (o m)) ∧ (∀ m, n ≤ m → V m = v₀ m) := by
  intro fuel
  induction fuel with
  | zero =>
    intro i v done hfuel
    omega
  | succ f ih =>
    intro i v done hfuel h1 h2 h3 h4 h5
    by_cases hin : i < n
    · by_cases hdone : done i = true
      · obtain ⟨V, hrun, hVa, hVb⟩ := ih (i + 1) v done (by omega) h1 h2 h3 h4
          (fun m hmi hmn => by
            rcases Nat.lt_or_ge m i with hlt | hge
            · exact h5 m hlt hmn
            · have : m = i := by omega
              rwa [this])
        refine ⟨V, ?_, hVa, hVb⟩
        simp only [reorderFrom]
        rw [if_pos hin, if_pos hdone]
        exact hrun
      · obtain ⟨L, hL0, hLn, hLi, hmin⟩ := exists_min_period h hin
        obtain ⟨V, D, hcyc, hu1, hu2, hu3, hu4⟩ :=
          cycleLoop_spec h hin hL0 hLn hLi hmin v (setB done i)
        have hfresh : ∀ t, done (o^[t] i) = false := by
          have horb := orbit_not_mem_of_closed h (P := fun m => done m = true)
            (fun m hm hd => h4 m hm hd) hin hdone hL0 hLi
          intro t
          have := horb t
          simpa using this
        have hDi : D i = true := by
          have hm : ∀ t, 0 < t → t < L → (i : Nat) ≠ o^[t] i :=
            fun t h1' h2' => (hmin t h1' h2').symm
          rw [hu4 i hm, setB_self]
        have H1' : ∀ m, m < n → D m = true → V m = v₀ (o m) := by
          intro m hmn hDm
          by_cases hc : ∃ t, t < L ∧ m = o^[t] i
          · obtain ⟨t, htL, rfl⟩ := hc
            rw [hu1 t htL]
            have hp : done (o (o^[t] i)) = false := by
              have he : o (o^[t] i) = o^[t + 1] i := (Function.iterate_succ_apply' o t i).symm
              rw [he]
              exact hfresh (t + 1)
            exact h2 _ (h.1 _ (iterate_mem h hin t)) hp
          · push_neg at hc
            rw [hu2 m hc]
            have hmi : m ≠ i := by
              have := hc 0 hL0
              simpa using this
            have hDm' : done m = true := by
              have heq := hu4 m (fun t ht1 ht2 => hc t ht2)
              rw [heq, setB_other done hmi] at hDm
              exact hDm
            exact h1 m hmn hDm'
        have H2' : ∀ m, m < n → D m = false → V m = v₀ m := by
          intro m hmn hDm
          have hc : ∀ t, t < L → m ≠ o^[t] i := by
            intro t htL heq
            rcases Nat.eq_zero_or_pos t with rfl | ht0
            · simp only [Function.iterate_zero_apply] at heq
              rw [heq, hDi] at hDm
              cases hDm
            · have := hu3 t ht0 htL
              rw [← heq] at this
              rw [this] at hDm
              cases hDm
          rw [hu2 m hc]
          have hmi : m ≠ i := by
            have := hc 0 hL0
            simpa using this
          have hDd : D m = done m := by
            rw [hu4 m (fun t ht1 ht2 => hc t ht2), setB_other done hmi]
          exact h2 m hmn (by rw [← hDd]; exact hDm)
        have H3' : ∀ m, n ≤ m → V m = v₀ m := by
          intro m hnm
          have hc : ∀ t, t < L → m ≠ o^[t] i := by
            intro t htL heq
            have := iterate_mem h hin t
            omega
          rw [hu2 m hc]
          exact h3 m hnm
        have H4' : ∀ m, m < n → D m = true → D (o m) = true := by
          intro m hmn hDm
          by_cases hc : ∃ t, t < L ∧ m = o^[t] i
          · obtain ⟨t, htL, rfl⟩ := hc
            have ho : o (o^[t] i) = o^[t + 1] i := (Function.iterate_succ_apply' o t i).symm
            rcases Nat.lt_or_ge (t + 1) L with h1' | h1'
            · rw [ho]
              exact hu3 (t + 1) (by omega) h1'
            · have hoi : o (o^[t] i) = i := by
                rw [ho, show t + 1 = L by omega, hLi]
              rw [hoi]
              exact hDi
          · push_neg at hc
            have hmi : m ≠ i := by
              have := hc 0 hL0
              simpa using this
            have hdm : done m = true := by
              have heq := hu4 m (fun t ht1 ht2 => hc t ht2)
              rw [heq, setB_other done hmi] at hDm
              exact hDm
            have hdom : done (o m) = true := h4 m hmn hdm
            have hco : ∀ t, t < L → o m ≠ o^[t] i := by
              intro t htL heq
              rw [heq, hfresh t] at hdom
              cases hdom
            have homi : o m ≠ i := by
              have := hco 0 hL0
              simpa using this
            rw [hu4 (o m) (fun t ht1 ht2 => hco t ht2), setB_other done homi]
            exact hdom
        have H5' : ∀ m, m < i + 1 → m < n → D m = true := by
          intro m hmi1 hmn
          rcases Nat.lt_or_ge m i with hmi | hmi
          · have hdm := h5 m hmi hmn
            have hc : ∀ t, t < L → m ≠ o^[t] i := by
              intro t htL heq
              rw [heq, hfresh t] at hdm
              cases hdm
            have hmi' : m ≠ i := by omega
            rw [hu4 m (fun t ht1 ht2 => hc t ht2), setB_other done hmi']
            exact hdm
          · have : m = i := by omega
            rw [this]
            exact hDi
        obtain ⟨V', hrun, hVa, hVb⟩ := ih (i + 1) V D (by omega) H1' H2' H3' H4' H5'
        refine ⟨V', ?_, hVa, hVb⟩
        simp only [reorderFrom]
        rw [if_pos hin, if_neg hdone, hcyc]
        exact hrun
    · refine ⟨v, ?_, ?_, h3⟩
      · simp only [reorderFrom]
        rw [if_neg hin]
      · intro m hmn
        exact h1 m hmn (h5 m (by omega) hmn)

/-- `Vec::reorder` gathers: for a bijective `order` of matching length it
succeeds, the new value at every `m < n` is the old value at `order m`,
positions outside `[0, n)` are untouched, and `order` itself is returned
unchanged. -/
theorem reorder_spec (h : BijOn o n) (v : Nat → α) :
    reorder n v o = some ((fun m => if m < n then v (o m) else v m), o) := by
  obtain ⟨V, hrun, hVa, hVb⟩ := reorderFrom_spec h v (n + 1) 0 v (fun _ => false)
    (by omega)
    (fun m hm hd => by simp at hd)
    (fun m hm _ => rfl)
    (fun m _ => rfl)
    (fun m hm hd => by simp at hd)
    (fun m hm _ => by omega)
  rw [reorder, hrun]
  have hV : V = fun m => if m < n then v (o m) else v m := by
    funext m
    by_cases hm : m < n
    · rw [if_pos hm]
      exact hVa m hm
    · rw [if_neg hm]
      exact hVb m (by omega)
  rw [hV]

/-! ### Correctness of `Vec::reorder_destructive` (cycle walk that consumes
the permutation buffer) -/

/-- Running the inner loop of `reorder_destructive` from `d = o^[t] s`
(`1 ≤ t ≤ L`, `L` the minimal period of `s`, `r = L - t` iterations left, the
unvisited cycle tail still holding its original `order` entries): each
remaining cycle position `o^[u] s` receives the value travelling in `temp`
(that of its cycle predecessor) and has its `order` entry overwritten with
`-1`; `remaining` drops by `r` and the final `temp` is the value of
`o^[L-1] s`. -/
theorem destrCycle_go (h : BijOn o n) {s L : Nat} (hs : s < n) (hLs : o^[L] s = s)
    (hmin : ∀ t, 0 < t → t < L → o^[t] s ≠ s) :
    ∀ r t, 1 ≤ t → t + r = L → ∀ fuel, r + 1 ≤ fuel →
      ∀ (v : Nat → α) (order : Nat → Int) (remaining : Int) (temp : α),
      (∀ u, t ≤ u → u < L → order (o^[u] s) = (o (o^[u] s) : Int)) →
      ∃ V Ord T, destrCycle s fuel v order remaining ((o^[t] s : Nat) : Int) temp
          = some (V, Ord, remaining - (r : Int), T)
        ∧ (∀ u, t ≤ u → u < L →
            V (o^[u] s) = if u = t then temp else v (o^[u - 1] s))
        ∧ (∀ m, (∀ u, t ≤ u → u < L → m ≠ o^[u] s) → V m = v m)
        ∧ (∀ u, t ≤ u → u < L → Ord (o^[u] s) = -1)
        ∧ (∀ m, (∀ u, t ≤ u → u < L → m ≠ o^[u] s) → Ord m = order m)
        ∧ T = if t = L then temp else v (o^[L - 1] s) := by
  intro r
  induction r with
  | zero =>
    intro t ht1 htL fuel hfuel v order remaining temp horder
    obtain ⟨f, rfl⟩ : ∃ f, fuel = f + 1 := ⟨fuel - 1, by omega⟩
    have ht : t = L := by omega
    subst ht
    refine ⟨v, order, temp, ?_, ?_, fun m _ => rfl, ?_, fun m _ => rfl, ?_⟩
    · simp only [destrCycle]
      rw [hLs, if_pos rfl, Nat.cast_zero, sub_zero]
    · intro u hu1 hu2
      omega
    · intro u hu1 hu2
      omega
    · rw [if_pos rfl]
  | succ r ih =>
    intro t ht1 htL fuel hfuel v order remaining temp horder
    obtain ⟨f, rfl⟩ : ∃ f, fuel = f + 1 := ⟨fuel - 1, by omega⟩
    have htL' : t < L := by omega
    have hne : ((o^[t] s : Nat) : Int) ≠ (s : Int) := by
      intro heq
      have heq' : o^[t] s = s := by exact_mod_cast heq
      exact hmin t (by omega) htL' heq'
    have hd : ∀ p q, p < q → q < L → o^[p] s ≠ o^[q] s :=
      fun p q hpq hqL => iterate_ne h hs hmin hpq hqL
    have htn : (((o^[t] s : Nat) : Int)).toNat = o^[t] s := Int.toNat_natCast _
    have hord_t : order (o^[t] s) = ((o^[t + 1] s : Nat) : Int) := by
      rw [horder t le_rfl htL']
      have hsucc : o^[t + 1] s = o (o^[t] s) := Function.iterate_succ_apply' o t s
      rw [hsucc]
    have hstep : destrCycle s (f + 1) v order remaining ((o^[t] s : Nat) : Int) temp
        = destrCycle s f (setF v (o^[t] s) temp) (setF order (o^[t] s) (-1))
            (remaining - 1) ((o^[t + 1] s : Nat) : Int) (v (o^[t] s)) := by
      simp only [destrCycle]
      rw [if_neg hne, htn, hord_t]
    have horder' : ∀ u, t + 1 ≤ u → u < L →
        setF order (o^[t] s) (-1) (o^[u] s) = (o (o^[u] s) : Int) := by
      intro u hu1 hu2
      rw [setF_other order _ _ (Ne.symm (hd t u (by omega) hu2))]
      exact horder u (by omega) hu2
    obtain ⟨V, Ord, T, hrun, hV1, hV2, hO1, hO2, hT⟩ :=
      ih (t + 1) (by omega) (by omega) f (by omega) (setF v (o^[t] s) temp)
        (setF order (o^[t] s) (-1)) (remaining - 1) (v (o^[t] s)) horder'
    refine ⟨V, Ord, T, ?_, ?_, ?_, ?_, ?_, ?_⟩
    · have harith : remaining - 1 - ((r : Nat) : Int) = remaining - ((r + 1 : Nat) : Int) := by
        push_cast
        ring
      rw [hstep, hrun, harith]
    · intro u hu1 hu2
      rcases eq_or_lt_of_le hu1 with rfl | hu1'
      · rw [hV2 _ (fun u' h1' h2' => hd t u' (by omega) h2'), setF_self, if_pos rfl]
      · rw [hV1 u (by omega) hu2]
        by_cases hut : u = t + 1
        · subst hut
          rw [if_pos rfl, if_neg (by omega)]
          have hund : t + 1 - 1 = t := by omega
          rw [hund]
        · rw [if_neg hut,
            setF_other v _ _ (Ne.symm (hd t (u - 1) (by omega) (by omega))),
            if_neg (by omega)]
    · intro m hm
      rw [hV2 m (fun u' h1' h2' => hm u' (by omega) h2'),
        setF_other v _ _ (hm t le_rfl htL')]
    · intro u hu1 hu2
      rcases eq_or_lt_of_le hu1 with rfl | hu1'
      · rw [hO2 _ (fun u' h1' h2' => hd t u' (by omega) h2'), setF_self]
      · exact hO1 u (by omega) hu2
    · intro m hm
      rw [hO2 m (fun u' h1' h2' => hm u' (by omega) h2'),
        setF_other order _ _ (hm t le_rfl htL')]
    · rw [hT]
      by_cases h1L : t + 1 = L
      · rw [if_pos h1L, if_neg (by omega), show t = L - 1 by omega]
      · rw [if_neg h1L, if_neg (by omega),
          setF_other v _ _ (Ne.symm (hd t (L - 1) (by omega) (by omega)))]

/-- The inner loop of `reorder_destructive` writes nothing but `-1` into the
`order` buffer. -/
theorem destrCycle_writes {s : Nat} :
    ∀ fuel (v : Nat → α) (order : Nat → Int) (remaining d : Int) (temp : α)
      V Ord rem' T,
      destrCycle s fuel v order remaining d temp = some (V, Ord, rem', T) →
      ∀ m, Ord m = -1 ∨ Ord m = order m := by
  intro fuel
  induction fuel with
  | zero =>
    intro v order remaining d temp V Ord rem' T hrun
    exact absurd hrun (by simp [destrCycle])
  | succ f ih =>
    intro v order remaining d temp V Ord rem' T hrun m
    simp only [destrCycle] at hrun
    by_cases hds : d = (s : Int)
    · rw [if_pos hds] at hrun
      simp only [Option.some.injEq, Prod.mk.injEq] at hrun
      right
      rw [← hrun.2.1]
    · rw [if_neg hds] at hrun
      rcases ih _ _ _ _ _ _ _ _ _ hrun m with h1 | h1
      · exact Or.inl h1
      · by_cases hm : m = d.toNat
        · subst hm
          exact Or.inl (by rw [h1, setF_self])
        · exact Or.inr (by rw [h1, setF_other order _ _ hm])

/-- The whole of `reorder_destructive` writes nothing but `-1` into the
`order` buffer: every final entry is either the sentinel or the original
value. -/
theorem destrLoop_writes :
    ∀ fuel s (v : Nat → α) (order : Nat → Int) (remaining : Int) V Ord,
      destrLoop n fuel s v order remaining = some (V, Ord) →
      ∀ m, Ord m = -1 ∨ Ord m = order m := by
  intro fuel
  induction fuel with
  | zero =>
    intro s v order remaining V Ord hrun
    exact absurd hrun (by simp [destrLoop])
  | succ f ih =>
    intro s v order remaining V Ord hrun m
    simp only [destrLoop] at hrun
    by_cases hr : remaining ≤ 0
    · rw [if_pos hr] at hrun
      simp only [Option.some.injEq, Prod.mk.injEq] at hrun
      right
      rw [← hrun.2]
    · rw [if_neg hr] at hrun
      by_cases hd1 : order s = -1
      · rw [if_pos hd1] at hrun
        exact ih _ _ _ _ _ _ hrun m
      · rw [if_neg hd1] at hrun
        rcases hc : destrCycle s (n + 1) v order (remaining - 1) (order s) (v s) with
          _ | ⟨v', order', rem', temp'⟩
        · rw [hc] at hrun
          cases hrun
        · rw [hc] at hrun
          rcases ih _ _ _ _ _ _ hrun m with h1 | h1
          · exact Or.inl h1
          · rcases destrCycle_writes _ _ _ _ _ _ _ _ _ _ hc m with h2 | h2
            · exact Or.inl (h1.trans h2)
            · exact Or.inr (h1.trans h2)
/-- Main loop invariant of `reorder_destructive`.  `S` is the set of
positions whose cycles have already been processed: it is `o`-closed,
contains everything below the scan position `s`, its members already hold the
scattered values (`v (o i) = v₀ i`), its members' `order` entries are `-1`
except for the (already scanned) cycle start positions, unprocessed entries
still hold the original permutation, and `remaining = n - 1 - |S|`.  Under
these conditions the loop completes and scatters the whole sequence; a
trailing unprocessed position (possible when `remaining` hits `0` one short
of `n`) is necessarily a fixed point of `o` and needs no move. -/
theorem destrLoop_spec (h : BijOn o n) (v₀ : Nat → α) :
    ∀ fuel s (v : Nat → α) (order : Nat → Int) (remaining : Int) (S : Finset Nat),
      n + 1 - s ≤ fuel →
      (∀ m, m ∈ S → m < n) →
      (∀ m, m ∈ S → o m ∈ S) →
      (∀ p, p < s → p ∈ S) →
      (∀ i, i < n → o i ∈ S → v (o i) = v₀ i) →
      (∀ m, m < n → m ∉ S → v m = v₀ m) →
      (∀ m, n ≤ m → v m = v₀ m) →
      (∀ m, m ∈ S → order m = -1 ∨ (order m = (o m : Int) ∧ m < s)) →
      (∀ m, m < n → m ∉ S → order m = (o m : Int)) →
      remaining = (n : Int) - 1 - S.card →
      ∃ V Ord, destrLoop n fuel s v order remaining = some (V, Ord)
        ∧ (∀ i, i < n → V (o i) = v₀ i)
        ∧ (∀ m, n ≤ m → V m = v₀ m) := by
  intro fuel
  induction fuel with
  | zero =>
    intro s v order remaining S hfuel hS1 hS2 hscan hv1 hv2 hv3 hoS hoNS hrem
    exfalso
    have hsn : n < s := by omega
    exact absurd (hS1 n (hscan n hsn)) (by omega)
  | succ f ih =>
    intro s v order remaining S hfuel hS1 hS2 hscan hv1 hv2 hv3 hoS hoNS hrem
    have hcardn : S.card ≤ n := by
      have hsub : S ⊆ Finset.range n := fun m hm => Finset.mem_range.mpr (hS1 m hm)
      have := Finset.card_le_card hsub
      rwa [Finset.card_range] at this
    by_cases hr : remaining ≤ 0
    · refine ⟨v, order, ?_, ?_, hv3⟩
      · simp only [destrLoop]
        rw [if_pos hr]
      · have hcard : n - 1 ≤ S.card := by omega
        intro i hi
        by_cases hoi : o i ∈ S
        · exact hv1 i hi hoi
        · have hiS : i ∉ S := fun hiS => hoi (hS2 i hiS)
          have hsub : S ⊆ Finset.range n := fun m hm => Finset.mem_range.mpr (hS1 m hm)
          have hle1 : ((Finset.range n) \ S).card ≤ 1 := by
            rw [Finset.card_sdiff hsub, Finset.card_range]
            omega
          have hiC : i ∈ (Finset.range n) \ S :=
            Finset.mem_sdiff.mpr ⟨Finset.mem_range.mpr hi, hiS⟩
          have hoiC : o i ∈ (Finset.range n) \ S :=
            Finset.mem_sdiff.mpr ⟨Finset.mem_range.mpr (h.1 i hi), hoi⟩
          have heq : o i = i := Finset.card_le_one.mp hle1 _ hoiC _ hiC
          rw [heq]
          exact hv2 i hi hiS
    · have hcardlt : (S.card : Int) < (n : Int) - 1 := by omega
      have hssub : Finset.range s ⊆ S := fun p hp => hscan p (Finset.mem_range.mp hp)
      have hscard : s ≤ S.card := by
        have := Finset.card_le_card hssub
        rwa [Finset.card_range] at this
      have hsn' : s < n := by omega
      by_cases hd1 : order s = -1
      · have hsS : s ∈ S := by
          by_contra hc
          rw [hoNS s hsn' hc] at hd1
          omega
        obtain ⟨V, Ord, hrun, hVa, hVb⟩ := ih (s + 1) v order remaining S (by omega) hS1 hS2
          (fun p hp => by
            rcases Nat.lt_or_ge p s with h' | h'
            · exact hscan p h'
            · have hps : p = s := by omega
              rwa [hps])
          hv1 hv2 hv3
          (fun m hm => by
            rcases hoS m hm with h' | ⟨h1', h2'⟩
            · exact Or.inl h'
            · exact Or.inr ⟨h1', by omega⟩)
          hoNS hrem
        refine ⟨V, Ord, ?_, hVa, hVb⟩
        simp only [destrLoop]
        rw [if_neg hr, if_pos hd1]
        exact hrun
      · -- a fresh cycle starts at `s`
        have hsS : s ∉ S := by
          intro hc
          rcases hoS s hc with h' | ⟨h1', h2'⟩
          · exact hd1 h'
          · omega
        have hords : order s = (o s : Int) := hoNS s hsn' hsS
        obtain ⟨L, hL0, hLn, hLs, hmin⟩ := exists_min_period h hsn'
        have hfresh : ∀ t, o^[t] s ∉ S :=
          orbit_not_mem_of_closed h (P := fun m => m ∈ S)
            (fun m hm hP => hS2 m hP) hsn' hsS hL0 hLs
        have hdist : ∀ p q, p < q → q < L → o^[p] s ≠ o^[q] s :=
          fun p q hpq hqL => iterate_ne h hsn' hmin hpq hqL
        have horder1 : ∀ u, 1 ≤ u → u < L → order (o^[u] s) = (o (o^[u] s) : Int) :=
          fun u hu1 hu2 => hoNS _ (iterate_mem h hsn' u) (hfresh u)
        obtain ⟨V, Ord, T, hrun, hV1, hV2, hO1, hO2, hT⟩ :=
          destrCycle_go h hsn' hLs hmin (L - 1) 1 le_rfl (by omega) (n + 1) (by omega)
            v order (remaining - 1) (v s) horder1
        have h1s : o^[1] s = o s := congrFun (Function.iterate_one o) s
        rw [h1s] at hrun
        -- the processed set grows by the cycle of `s`
        have hC : ∀ m, m ∈ (Finset.range L).image (fun t => o^[t] s) ↔
            ∃ t, t < L ∧ o^[t] s = m := by
          intro m
          simp [Finset.mem_image, Finset.mem_range]
        have hCS : ∀ m, m ∈ (Finset.range L).image (fun t => o^[t] s) → m ∉ S := by
          intro m hm
          obtain ⟨t, htL, rfl⟩ := (hC m).mp hm
          exact hfresh t
        have hCcard : ((Finset.range L).image (fun t => o^[t] s)).card = L := by
          rw [Finset.card_image_of_injOn, Finset.card_range]
          intro a ha b hb hab
          simp only [Finset.coe_range, Set.mem_Iio] at ha hb
          by_contra hne'
          rcases Nat.lt_or_ge a b with h' | h'
          · exact hdist a b h' hb hab
          · exact hdist b a (by omega) ha hab.symm
        have hdisj : Disjoint S ((Finset.range L).image (fun t => o^[t] s)) :=
          Finset.disjoint_left.mpr (fun m hmS hmC => hCS m hmC hmS)
        have hS'card : (S ∪ (Finset.range L).image (fun t => o^[t] s)).card = S.card + L := by
          rw [Finset.card_union_of_disjoint hdisj, hCcard]
        have hsC : s ∈ (Finset.range L).image (fun t => o^[t] s) :=
          (hC s).mpr ⟨0, hL0, rfl⟩
        have hTv : T = v (o^[L - 1] s) := by
          rw [hT]
          by_cases h1L : (1 : Nat) = L
          · rw [if_pos h1L, show L - 1 = 0 by omega, Function.iterate_zero_apply]
          · rw [if_neg h1L]
        -- invariant for the recursive call
        have HS1 : ∀ m, m ∈ S ∪ (Finset.range L).image (fun t => o^[t] s) → m < n := by
          intro m hm
          rcases Finset.mem_union.mp hm with hm' | hm'
          · exact hS1 m hm'
          · obtain ⟨t, htL, rfl⟩ := (hC m).mp hm'
            exact iterate_mem h hsn' t
        have HS2 : ∀ m, m ∈ S ∪ (Finset.range L).image (fun t => o^[t] s) →
            o m ∈ S ∪ (Finset.range L).image (fun t => o^[t] s) := by
          intro m hm
          rcases Finset.mem_union.mp hm with hm' | hm'
          · exact Finset.mem_union_left _ (hS2 m hm')
          · obtain ⟨t, htL, rfl⟩ := (hC m).mp hm'
            refine Finset.mem_union_right _ ?_
            have hsucc : o (o^[t] s) = o^[t + 1] s := (Function.iterate_succ_apply' o t s).symm
            rcases Nat.lt_or_ge (t + 1) L with h' | h'
            · exact (hC _).mpr ⟨t + 1, h', hsucc.symm⟩
            · have htL1 : t + 1 = L := by omega
              have hws : o (o^[t] s) = s := by rw [hsucc, htL1, hLs]
              rw [hws]
              exact hsC
        have Hscan : ∀ p, p < s + 1 → p ∈ S ∪ (Finset.range L).image (fun t => o^[t] s) := by
          intro p hp
          rcases Nat.lt_or_ge p s with h' | h'
          · exact Finset.mem_union_left _ (hscan p h')
          · have hps : p = s := by omega
            rw [hps]
            exact Finset.mem_union_right _ hsC
        have Hv1 : ∀ i, i < n → o i ∈ S ∪ (Finset.range L).image (fun t => o^[t] s) →
            setF V s T (o i) = v₀ i := by
          intro i hi hoi
          rcases Finset.mem_union.mp hoi with hm' | hm'
          · -- already-processed position: untouched by this cycle
            have hne1 : o i ≠ s := fun he => hsS (he ▸ hm')
            rw [setF_other V s T hne1]
            have hout : ∀ u, 1 ≤ u → u < L → o i ≠ o^[u] s := by
              intro u hu1 hu2 he
              exact hfresh u (he ▸ hm')
            rw [hV2 _ hout]
            exact hv1 i hi hm'
          · obtain ⟨t, htL, hts⟩ := (hC (o i)).mp hm'
            rcases Nat.eq_zero_or_pos t with rfl | ht0
            · -- `o i = s`: `i` is the last cycle position, receiving `T`
              simp only [Function.iterate_zero_apply] at hts
              have hiL : i = o^[L - 1] s := by
                have hsucc : o (o^[L - 1] s) = o^[L] s := by
                  have he : o^[L - 1 + 1] s = o (o^[L - 1] s) :=
                    Function.iterate_succ_apply' o (L - 1) s
                  rw [← he, show L - 1 + 1 = L by omega]
                apply h.2 i hi _ (iterate_mem h hsn' (L - 1))
                rw [← hts, hsucc, hLs]
              rw [← hts, setF_self, hTv, hiL]
              exact hv2 _ (iterate_mem h hsn' (L - 1)) (hfresh (L - 1))
            · -- `o i` is an interior cycle position
              have hiT : i = o^[t - 1] s := by
                have hsucc : o (o^[t - 1] s) = o^[t] s := by
                  have he : o^[t - 1 + 1] s = o (o^[t - 1] s) :=
                    Function.iterate_succ_apply' o (t - 1) s
                  rw [← he, show t - 1 + 1 = t by omega]
                apply h.2 i hi _ (iterate_mem h hsn' (t - 1))
                rw [← hts, hsucc]
              have hne1 : o i ≠ s := by
                rw [← hts]
                have h0t : o^[0] s ≠ o^[t] s := hdist 0 t ht0 htL
                simpa using h0t.symm
              rw [setF_other V s T hne1, ← hts, hV1 t ht0 htL]
              by_cases ht1 : t = 1
              · rw [if_pos ht1, hiT, ht1]
                have hz : (1 : Nat) - 1 = 0 := rfl
                rw [hz, Function.iterate_zero_apply]
                exact hv2 s hsn' hsS
              · rw [if_neg ht1, hiT]
                exact hv2 _ (iterate_mem h hsn' (t - 1)) (hfresh (t - 1))
        have Hv2 : ∀ m, m < n → m ∉ S ∪ (Finset.range L).image (fun t => o^[t] s) →
            setF V s T m = v₀ m := by
          intro m hm hmS
          have hmS1 : m ∉ S := fun hc => hmS (Finset.mem_union_left _ hc)
          have hmC : ∀ t, t < L → m ≠ o^[t] s := by
            intro t htL he
            exact hmS (Finset.mem_union_right _ ((hC m).mpr ⟨t, htL, he.symm⟩))
          have hne1 : m ≠ s := by
            intro he
            exact (hmC 0 hL0) (by simpa using he)
          rw [setF_other V s T hne1, hV2 m (fun u hu1 hu2 => hmC u hu2)]
          exact hv2 m hm hmS1
        have Hv3 : ∀ m, n ≤ m → setF V s T m = v₀ m := by
          intro m hm
          have hne1 : m ≠ s := by omega
          have hmC : ∀ u, 1 ≤ u → u < L → m ≠ o^[u] s := by
            intro u hu1 hu2 he
            have := iterate_mem h hsn' u
            omega
          rw [setF_other V s T hne1, hV2 m hmC]
          exact hv3 m hm
        have HoS : ∀ m, m ∈ S ∪ (Finset.range L).image (fun t => o^[t] s) →
            Ord m = -1 ∨ (Ord m = (o m : Int) ∧ m < s + 1) := by
          intro m hm
          rcases Finset.mem_union.mp hm with hm' | hm'
          · have hout : ∀ u, 1 ≤ u → u < L → m ≠ o^[u] s := by
              intro u hu1 hu2 he
              exact hfresh u (he ▸ hm')
            rw [hO2 m hout]
            rcases hoS m hm' with h' | ⟨h1', h2'⟩
            · exact Or.inl h'
            · exact Or.inr ⟨h1', by omega⟩
          · obtain ⟨t, htL, hts⟩ := (hC m).mp hm'
            rcases Nat.eq_zero_or_pos t with rfl | ht0
            · -- `m = s`, the cycle start: entry kept, now scanned
              simp only [Function.iterate_zero_apply] at hts
              subst hts
              have hout : ∀ u, 1 ≤ u → u < L → s ≠ o^[u] s := by
                intro u hu1 hu2
                have h0u : o^[0] s ≠ o^[u] s := hdist 0 u hu1 hu2
                simpa using h0u
              rw [hO2 s hout]
              exact Or.inr ⟨hords, by omega⟩
            · rw [← hts]
              exact Or.inl (hO1 t ht0 htL)
        have HoNS : ∀ m, m < n → m ∉ S ∪ (Finset.range L).image (fun t => o^[t] s) →
            Ord m = (o m : Int) := by
          intro m hm hmS
          have hmS1 : m ∉ S := fun hc => hmS (Finset.mem_union_left _ hc)
          have hmC : ∀ u, 1 ≤ u → u < L → m ≠ o^[u] s := by
            intro u hu1 hu2 he
            exact hmS (Finset.mem_union_right _ ((hC m).mpr ⟨u, hu2, he.symm⟩))
          rw [hO2 m hmC]
          exact hoNS m hm hmS1
        have Hrem : remaining - 1 - ((L - 1 : Nat) : Int)
            = (n : Int) - 1 - ((S ∪ (Finset.range L).image (fun t => o^[t] s)).card) := by
          rw [hS'card, hrem]
          have hL1 : (1 : Nat) ≤ L := hL0
          push_cast [hL1]
          ring
        obtain ⟨V', Ord', hrun', hVa, hVb⟩ := ih (s + 1) (setF V s T) Ord
          (remaining - 1 - ((L - 1 : Nat) : Int))
          (S ∪ (Finset.range L).image (fun t => o^[t] s))
          (by omega) HS1 HS2 Hscan Hv1 Hv2 Hv3 HoS HoNS Hrem
        refine ⟨V', Ord', ?_, hVa, hVb⟩
        simp only [destrLoop]
        rw [if_neg hr, if_neg hd1, hords, hrun]
        exact hrun'

/-- `Vec::reorder_destructive` scatters: for a bijective `order` of matching
length it succeeds, the value that was at position `i` ends at position
`order i`, positions outside `[0, n)` are untouched, and every final entry of
the `order` buffer is either the sentinel `-1` or its original value. -/
theorem reorder_destructive_spec (n : Nat) (order : Nat → Int)
    (hpos : ∀ m, m < n → 0 ≤ order m) (hlt : ∀ m, m < n → order m < n)
    (hinj : ∀ i, i < n → ∀ j, j < n → order i = order j → i = j) (v : Nat → α) :
    ∃ V Ord, reorder_destructive n order v = some (V, Ord)
      ∧ (∀ i, i < n → V (order i).toNat = v i)
      ∧ (∀ m, n ≤ m → V m = v m)
      ∧ (∀ m, Ord m = -1 ∨ Ord m = order m) := by
  have hob : BijOn (fun m => (order m).toNat) n := by
    constructor
    · intro i hi
      have h1 := hpos i hi
      have h2 := hlt i hi
      simp only
      omega
    · intro i hi j hj heq
      apply hinj i hi j hj
      have h1 := hpos i hi
      have h2 := hpos j hj
      simp only at heq
      omega
  have hco : ∀ m, m < n → order m = (((order m).toNat : Nat) : Int) := by
    intro m hm
    have := hpos m hm
    omega
  obtain ⟨V, Ord, hrun, hVa, hVb⟩ := destrLoop_spec hob v (n + 1) 0 v order
    ((n : Int) - 1) ∅
    (by omega)
    (fun m hm => absurd hm (Finset.not_mem_empty m))
    (fun m hm => absurd hm (Finset.not_mem_empty m))
    (fun p hp => absurd hp (by omega))
    (fun i hi hoi => absurd hoi (Finset.not_mem_empty _))
    (fun m hm _ => rfl)
    (fun m _ => rfl)
    (fun m hm => absurd hm (Finset.not_mem_empty m))
    (fun m hm _ => hco m hm)
    (by simp)
  exact ⟨V, Ord, hrun, hVa, hVb,
    destrLoop_writes (n + 1) 0 v order ((n : Int) - 1) V Ord hrun⟩

/-! ### Multiset preservation helper -/

/-- A bijection on `[0, n)` permutes the list `[0, …, n)`. -/
theorem map_range_perm (h : BijOn o n) : ((List.range n).map o).Perm (List.range n) := by
  have hnodup : ((List.range n).map o).Nodup := by
    refine List.Nodup.map_on ?_ (List.nodup_range n)
    intro x hx y hy hxy
    exact h.2 x (List.mem_range.mp hx) y (List.mem_range.mp hy) hxy
  have hsub : (List.range n).map o ⊆ List.range n := by
    intro x hx
    obtain ⟨a, ha, rfl⟩ := List.mem_map.mp hx
    exact List.mem_range.mpr (h.1 a (List.mem_range.mp ha))
  refine (List.subperm_of_subset hnodup hsub).perm_of_length_le ?_
  simp

/-! ### Facts about `Vec::sort_indices` -/

theorem sort_indices_le_trans [LinearOrder α] [Inhabited α] (v : List α) :
    ∀ a b c : Nat, (!decide (v[b]! < v[a]!)) = true → (!decide (v[c]! < v[b]!)) = true →
      (!decide (v[c]! < v[a]!)) = true := by
  intro a b c hab hbc
  simp only [Bool.not_eq_true', decide_eq_false_iff_not, not_lt] at hab hbc ⊢
  exact le_trans hab hbc

theorem sort_indices_le_total [LinearOrder α] [Inhabited α] (v : List α) :
    ∀ a b : Nat, ((!decide (v[b]! < v[a]!)) || (!decide (v[a]! < v[b]!))) = true := by
  intro a b
  simp only [Bool.or_eq_true, Bool.not_eq_true', decide_eq_false_iff_not, not_lt]
  exact le_total _ _

/-- For `a < b < n`, the two-element list `[a, b]` is a sublist of
`[0, …, n)`. -/
theorem pair_sublist_range {a b : Nat} : ∀ {n : Nat}, a < b → b < n →
    [a, b].Sublist (List.range n) := by
  intro n
  induction n with
  | zero =>
    intro _ h
    omega
  | succ n ihn =>
    intro hab hbn
    rw [List.range_succ]
    rcases Nat.lt_or_ge b n with h' | h'
    · exact (ihn hab h').trans (List.sublist_append_left _ _)
    · have hbn' : b = n := by omega
      exact List.Sublist.append
        (List.singleton_sublist.mpr (List.mem_range.mpr (by omega)))
        (by rw [hbn'])

/-! ### Facts about `Vec::RemoveDuplicates` -/

theorem removeDupsGo_mem [DecidableEq α] :
    ∀ (v seen : List α) (x : α), x ∈ removeDupsGo v seen → x ∈ v ∧ x ∉ seen := by
  intro v
  induction v with
  | nil =>
    intro seen x hx
    simp [removeDupsGo] at hx
  | cons y ys ih =>
    intro seen x hx
    simp only [removeDupsGo] at hx
    by_cases hy : y ∈ seen
    · rw [if_pos hy] at hx
      obtain ⟨h1, h2⟩ := ih seen x hx
      exact ⟨List.mem_cons_of_mem y h1, h2⟩
    · rw [if_neg hy] at hx
      rcases List.mem_cons.mp hx with rfl | hx'
      · exact ⟨List.mem_cons_self x ys, hy⟩
      · obtain ⟨h1, h2⟩ := ih (y :: seen) x hx'
        exact ⟨List.mem_cons_of_mem y h1, fun hc => h2 (List.mem_cons_of_mem y hc)⟩

theorem removeDupsGo_nodup [DecidableEq α] :
    ∀ (v seen : List α), (removeDupsGo v seen).Nodup := by
  intro v
  induction v with
  | nil =>
    intro seen
    simp [removeDupsGo]
  | cons y ys ih =>
    intro seen
    simp only [removeDupsGo]
    by_cases hy : y ∈ seen
    · rw [if_pos hy]
      exact ih seen
    · rw [if_neg hy]
      refine List.nodup_cons.mpr ⟨?_, ih (y :: seen)⟩
      intro hc
      exact (removeDupsGo_mem ys (y :: seen) y hc).2 (List.mem_cons_self y seen)

theorem removeDupsGo_of_nodup [DecidableEq α] :
    ∀ (v seen : List α), v.Nodup → (∀ x, x ∈ v → x ∉ seen) →
      removeDupsGo v seen = v := by
  intro v
  induction v with
  | nil =>
    intro seen _ _
    rfl
  | cons y ys ih =>
    intro seen hnd hdisj
    simp only [removeDupsGo]
    rw [if_neg (hdisj y (List.mem_cons_self y ys))]
    congr 1
    refine ih (y :: seen) (List.nodup_cons.mp hnd).2 ?_
    intro x hx hc
    rcases List.mem_cons.mp hc with rfl | hc'
    · exact (List.nodup_cons.mp hnd).1 hx
    · exact hdisj x (List.mem_cons_of_mem y hx) hc'

theorem mem_middle_iff [DecidableEq α] {a x : α} {s t : List α} :
    a ∈ s ++ x :: t ↔ a ∈ x :: s ++ t := by
  simp only [List.mem_append, List.mem_cons]
  tauto

/-- The `seen`-set pass keeps exactly the positions whose value does not
occur earlier (nor in the initial `seen` set, described up to membership by
`s₂`). -/
theorem removeDupsGo_eq_filter [DecidableEq α] [Inhabited α] :
    ∀ (v s₁ s₂ : List α), (∀ y, y ∈ s₁ ↔ y ∈ s₂) →
      removeDupsGo v s₁
        = ((List.range v.length).filter
              (fun k => !decide (v[k]! ∈ s₂ ++ v.take k))).map (fun k => v[k]!) := by
  intro v
  induction v with
  | nil =>
    intro s₁ s₂ hmem
    simp [removeDupsGo]
  | cons x xs ih =>
    intro s₁ s₂ hmem
    simp only [removeDupsGo, List.length_cons]
    rw [List.range_succ_eq_map, List.filter_cons]
    have hhead : (!decide ((x :: xs)[0]! ∈ s₂ ++ (x :: xs).take 0)) = !decide (x ∈ s₁) := by
      simp only [List.getElem!_cons_zero, List.take_zero, List.append_nil]
      congr 1
      exact decide_eq_decide.mpr (hmem x).symm
    have htail : ∀ (s₁' s₂' : List α), (∀ y, y ∈ s₁' ↔ y ∈ s₂') →
        (∀ y, y ∈ x :: s₂ ↔ y ∈ s₂') →
        removeDupsGo xs s₁'
          = ((List.map Nat.succ (List.range xs.length)).filter
                (fun k => !decide ((x :: xs)[k]! ∈ s₂ ++ (x :: xs).take k))).map
              (fun k => (x :: xs)[k]!) := by
      intro s₁' s₂' hmem' hcompat
      rw [List.filter_map, List.map_map]
      have hpred : ∀ k ∈ List.range xs.length,
          ((fun k => !decide ((x :: xs)[k]! ∈ s₂ ++ (x :: xs).take k)) ∘ Nat.succ) k
            = (fun k => !decide (xs[k]! ∈ s₂' ++ xs.take k)) k := by
        intro k _
        simp only [Function.comp_apply]
        have h1 : (x :: xs)[k + 1]! = xs[k]! := List.getElem!_cons_succ
        have h2 : (x :: xs).take (k + 1) = x :: xs.take k := List.take_succ_cons
        rw [show Nat.succ k = k + 1 from rfl, h1, h2]
        congr 1
        refine decide_eq_decide.mpr ?_
        rw [mem_middle_iff]
        constructor
        · intro hin
          rcases List.mem_cons.mp hin with heq | hin'
          · refine List.mem_append_left _ ((hcompat _).mp ?_)
            rw [heq]
            exact List.mem_cons_self x s₂
          · rcases List.mem_append.mp hin' with hin'' | hin''
            · exact List.mem_append_left _ ((hcompat _).mp (List.mem_cons_of_mem x hin''))
            · exact List.mem_append_right _ hin''
        · intro hin
          rcases List.mem_append.mp hin with hin' | hin'
          · exact List.mem_append.mpr (Or.inl ((hcompat _).mpr hin'))
          · exact List.mem_cons_of_mem x (List.mem_append_right _ hin')
      rw [List.filter_congr hpred]
      have hfun : ∀ k ∈ (List.range xs.length).filter
          (fun k => !decide (xs[k]! ∈ s₂' ++ xs.take k)),
          ((fun k => (x :: xs)[k]!) ∘ Nat.succ) k = (fun k => xs[k]!) k := by
        intro k _
        simp only [Function.comp_apply]
        exact List.getElem!_cons_succ
      rw [List.map_congr_left hfun]
      exact ih s₁' s₂' hmem'
    by_cases hx : x ∈ s₁
    · have hb : (!decide (x ∈ s₁)) = false := by
        simp [hx]
      rw [hhead, hb, if_neg Bool.false_ne_true, if_pos hx]
      exact htail s₁ (x :: s₂)
        (fun y => by
          constructor
          · intro hy
            exact List.mem_cons_of_mem x ((hmem y).mp hy)
          · intro hy
            rcases List.mem_cons.mp hy with rfl | hy'
            · exact hx
            · exact (hmem y).mpr hy')
        (fun y => Iff.rfl)
    · have hb : (!decide (x ∈ s₁)) = true := by
        simp [hx]
      rw [hhead, hb, if_pos rfl, if_neg hx]
      have hx0 : (x :: xs)[0]! = x := List.getElem!_cons_zero
      rw [List.map_cons, hx0]
      congr 1
      exact htail (x :: s₁) (x :: s₂)
        (fun y => by
          constructor
          · intro hy
            rcases List.mem_cons.mp hy with rfl | hy'
            · exact List.mem_cons_self y s₂
            · exact List.mem_cons_of_mem x ((hmem y).mp hy')
          · intro hy
            rcases List.mem_cons.mp hy with rfl | hy'
            · exact List.mem_cons_self y s₁
            · exact List.mem_cons_of_mem x ((hmem y).mpr hy'))
        (fun y => Iff.rfl)

/-! ### Facts about `Vec::remove_intersection` -/

theorem remove_intersection_mem [DecidableEq α] (a b : List α) (x : α) :
    x ∈ (remove_intersection a b).1 ↔ x ∈ a ∧ a.count x = 1 ∧ x ∉ b := by
  simp only [remove_intersection, List.mem_filter, Bool.not_eq_true',
    decide_eq_false_iff_not, not_lt]
  constructor
  · intro ⟨hxa, hcnt⟩
    rw [List.count_append] at hcnt
    have h1 : 0 < a.count x := List.count_pos_iff.mpr hxa
    have h2 : b.count x = 0 := by omega
    exact ⟨hxa, by omega, fun hxb => by
      have := List.count_pos_iff.mpr hxb
      omega⟩
  · intro ⟨hxa, hca, hxb⟩
    refine ⟨hxa, ?_⟩
    rw [List.count_append, hca, List.count_eq_zero.mpr hxb]

theorem remove_intersection_sublist [DecidableEq α] (a b : List α) :
    (remove_intersection a b).1.Sublist a := by
  simp only [remove_intersection]
  exact List.filter_sublist a

/-! ### Concrete inputs used by witnesses and counterexamples -/

/-- The sequence `[1, 2, 3, 4]` of the documented examples. -/
def vEx : Nat → Int := fun m => ([1, 2, 3, 4] : List Int).getD m 0

/-- The permutation `[2, 0, 3, 1]` of the documented examples. -/
def ordEx : Nat → Nat := fun m => [2, 0, 3, 1].getD m 0

/-- The permutation `[2, 0, 3, 1]` as the `Int`-valued buffer handed to the
destructive applicator. -/
def ordExI : Nat → Int := fun m => ([2, 0, 3, 1] : List Int).getD m 0

/-- The identity permutation on two elements, `Int`-valued. -/
def ordId2 : Nat → Int := fun m => ([0, 1] : List Int).getD m 0

/-- The involution `[1, 0, 3, 2]`. -/
def ordInv : Nat → Nat := fun m => [1, 0, 3, 2].getD m 0

/-! ### The claims -/

/-- C1 counterexample: `[2, 0, 3, 1]` is a valid permutation of `[0, 4)` and
`ordExI` is an equal copy of it, yet on equal copies of `[1, 2, 3, 4]` the
non-destructive `reorder` puts `3` at position 0 while `reorder_destructive`
puts `2` there — the two variants do not produce identical sequences. -/
theorem C1_counterexample :
    BijOn ordEx 4
    ∧ (∀ m, m < 4 → ordExI m = (ordEx m : Int))
    ∧ (reorder 4 vEx ordEx).map (fun r => r.1 0) = some 3
    ∧ (reorder_destructive 4 ordExI vEx).map (fun r => r.1 0) = some 2 :=
  ⟨by decide, by decide, by decide, by decide⟩

/-- C1 (amended): `reorder` gathers while `reorder_destructive` scatters, so
the two produce identical resulting sequences exactly when the permutation is
self-inverse; for every valid permutation `p` that is an involution on
`[0, n)`, running them on equal copies of the same sequence gives pointwise
equal results. -/
theorem reorder_eq_reorder_destructive_of_involution {n : Nat} {ord : Nat → Nat}
    (h : BijOn ord n) (hinv : ∀ i, i < n → ord (ord i) = i) (v : Nat → α) :
    ∃ r1 r2, reorder n v ord = some r1
      ∧ reorder_destructive n (fun m => (ord m : Int)) v = some r2
      ∧ ∀ m, r1.1 m = r2.1 m := by
  obtain ⟨V, Ord, hrun, hVa, hVb, _⟩ := reorder_destructive_spec n
    (fun m => (ord m : Int))
    (fun m _ => Int.natCast_nonneg _)
    (fun m hm => by
      show ((ord m : Nat) : Int) < (n : Int)
      exact_mod_cast h.1 m hm)
    (fun i hi j hj heq => by
      apply h.2 i hi j hj
      have heq' : ((ord i : Nat) : Int) = ((ord j : Nat) : Int) := heq
      exact_mod_cast heq') v
  refine ⟨_, (V, Ord), reorder_spec h v, hrun, ?_⟩
  intro m
  show (if m < n then v (ord m) else v m) = V m
  by_cases hm : m < n
  · rw [if_pos hm]
    have h1 := hVa (ord m) (h.1 m hm)
    rw [Int.toNat_natCast, hinv m hm] at h1
    exact h1.symm
  · rw [if_neg hm]
    exact (hVb m (by omega)).symm

/-- C1 witness: on the involution `[1, 0, 3, 2]` both applicators turn
`[1, 2, 3, 4]` into the same sequence. -/
theorem C1_witness :
    ∃ r1 r2, reorder 4 vEx ordInv = some r1
      ∧ reorder_destructive 4 (fun m => (ordInv m : Int)) vEx = some r2
      ∧ ∀ m, r1.1 m = r2.1 m :=
  reorder_eq_reorder_destructive_of_involution (by decide) (by decide) vEx

/-- C2: for a bijective `order` of matching length, `reorder` succeeds and
afterwards the element at each position `i` is the element that was at
position `order i` before the call (`v'[i] = v_old[order[i]]`). -/
theorem reorder_gathers {n : Nat} {ord : Nat → Nat} (h : BijOn ord n) (v : Nat → α) :
    ∃ r, reorder n v ord = some r ∧ ∀ i, i < n → r.1 i = v (ord i) := by
  refine ⟨_, reorder_spec h v, ?_⟩
  intro i hi
  show (if i < n then v (ord i) else v i) = v (ord i)
  rw [if_pos hi]

/-- C2 witness: `reorder([1,2,3,4], [2,0,3,1])` yields `[3,1,4,2]`. -/
theorem C2_witness :
    (∃ r, reorder 4 vEx ordEx = some r ∧ ∀ i, i < 4 → r.1 i = vEx (ordEx i))
    ∧ (reorder 4 vEx ordEx).map (fun r => [r.1 0, r.1 1, r.1 2, r.1 3])
        = some [3, 1, 4, 2] :=
  ⟨reorder_gathers (by decide) vEx, by decide⟩

/-- C3: `sort_indices keys` is a permutation of `[0, keys.length)`, reading
the keys through it is non-decreasing, and ties are stable: indices `a < b`
with equal keys appear in the output in the order `a` before `b`. -/
theorem sort_indices_spec [LinearOrder α] [Inhabited α] (keys : List α) :
    (sort_indices keys).Perm (List.range keys.length)
    ∧ List.Pairwise (fun i j => keys[i]! ≤ keys[j]!) (sort_indices keys)
    ∧ ∀ a b, a < b → b < keys.length → keys[a]! = keys[b]! →
        [a, b].Sublist (sort_indices keys) := by
  refine ⟨List.mergeSort_perm _ _, ?_, ?_⟩
  · have hp := List.sorted_mergeSort
      (sort_indices_le_trans keys) (sort_indices_le_total keys) (List.range keys.length)
    refine hp.imp ?_
    intro i j hij
    simp only [Bool.not_eq_true', decide_eq_false_iff_not, not_lt] at hij
    exact hij
  · intro a b hab hbn hk
    refine List.pair_sublist_mergeSort (sort_indices_le_trans keys)
      (sort_indices_le_total keys) ?_ (pair_sublist_range hab hbn)
    simp only [Bool.not_eq_true', decide_eq_false_iff_not, not_lt]
    rw [hk]

/-- C3 witness: the spec example `[5,4,3,2,0,1]` produces a permutation of
`[0, 6)`, and on the tied keys `[7, 7]` index `0` stays before index `1`. -/
theorem C3_witness :
    (sort_indices ([5, 4, 3, 2, 0, 1] : List Int)).Perm (List.range 6)
    ∧ [0, 1].Sublist (sort_indices ([7, 7] : List Int)) :=
  ⟨(sort_indices_spec ([5, 4, 3, 2, 0, 1] : List Int)).1,
   (sort_indices_spec ([7, 7] : List Int)).2.2 0 1 (by decide) (by decide) (by decide)⟩

/-- C4 counterexample: on the valid identity permutation `[0, 1]`,
`reorder_destructive` terminates with the order buffer untouched — entry 0
still holds the valid index `0`, not the sentinel `-1`. -/
theorem C4_counterexample :
    (∀ m, m < 2 → 0 ≤ ordId2 m ∧ ordId2 m < 2)
    ∧ (∀ i, i < 2 → ∀ j, j < 2 → ordId2 i = ordId2 j → i = j)
    ∧ (reorder_destructive 2 ordId2 (fun m => ([10, 20] : List Int).getD m 0)).map
        (fun r => r.2 0) = some 0
    ∧ (0 : Int) ≠ -1 :=
  ⟨by decide, by decide, by decide, by decide⟩

/-- C4 (amended): after `reorder_destructive` completes on a valid bijective
permutation, every entry of the order buffer is either consumed (overwritten
with the sentinel `-1`) or still holds its original index — cycle-start
entries and a trailing fixed point may survive, so the buffer must be treated
as invalidated rather than uniformly `-1`. -/
theorem reorder_destructive_order_consumed {n : Nat} {order : Nat → Int}
    (hpos : ∀ m, m < n → 0 ≤ order m) (hlt : ∀ m, m < n → order m < n)
    (hinj : ∀ i, i < n → ∀ j, j < n → order i = order j → i = j) (v : Nat → α) :
    ∃ r, reorder_destructive n order v = some r
      ∧ ∀ m, r.2 m = -1 ∨ r.2 m = order m := by
  obtain ⟨V, Ord, hrun, _, _, hw⟩ := reorder_destructive_spec n order hpos hlt hinj v
  exact ⟨(V, Ord), hrun, hw⟩

/-- C4 witness: the amended claim at the example permutation `[2, 0, 3, 1]`
and sequence `[1, 2, 3, 4]`. -/
theorem C4_witness :
    ∃ r, reorder_destructive 4 ordExI vEx = some r
      ∧ ∀ m, r.2 m = -1 ∨ r.2 m = ordExI m :=
  reorder_destructive_order_consumed (by decide) (by decide) (by decide) vEx

/-- C5: on a valid bijective permutation of matching length both `reorder`
and `reorder_destructive` succeed and leave the multiset of values stored in
the first `n` positions unchanged — the lists of values are permutations of
the original. -/
theorem reorder_preserves_multiset {n : Nat} {ord : Nat → Nat} (h : BijOn ord n)
    (v : Nat → α) :
    ∃ r1 r2, reorder n v ord = some r1
      ∧ reorder_destructive n (fun m => (ord m : Int)) v = some r2
      ∧ ((List.range n).map r1.1).Perm ((List.range n).map v)
      ∧ ((List.range n).map r2.1).Perm ((List.range n).map v) := by
  obtain ⟨V, Ord, hrun2, hVa, _, _⟩ := reorder_destructive_spec n
    (fun m => (ord m : Int))
    (fun m _ => Int.natCast_nonneg _)
    (fun m hm => by
      show ((ord m : Nat) : Int) < (n : Int)
      exact_mod_cast h.1 m hm)
    (fun i hi j hj heq => by
      apply h.2 i hi j hj
      have heq' : ((ord i : Nat) : Int) = ((ord j : Nat) : Int) := heq
      exact_mod_cast heq') v
  refine ⟨_, (V, Ord), reorder_spec h v, hrun2, ?_, ?_⟩
  · show ((List.range n).map (fun m => if m < n then v (ord m) else v m)).Perm
      ((List.range n).map v)
    have h1 : (List.range n).map (fun m => if m < n then v (ord m) else v m)
        = ((List.range n).map ord).map v := by
      rw [List.map_map]
      refine List.map_congr_left ?_
      intro m hm
      have hmn := List.mem_range.mp hm
      simp only [Function.comp_apply]
      rw [if_pos hmn]
    rw [h1]
    exact (map_range_perm h).map v
  · have h2 : ((List.range n).map ord).map V = (List.range n).map v := by
      rw [List.map_map]
      refine List.map_congr_left ?_
      intro m hm
      have hmn := List.mem_range.mp hm
      simp only [Function.comp_apply]
      have h3 := hVa m hmn
      rw [Int.toNat_natCast] at h3
      exact h3
    have h3 := (map_range_perm h).map V
    rw [h2] at h3
    exact h3.symm

/-- C5 witness: the multiset claim at the example permutation and sequence. -/
theorem C5_witness :
    ∃ r1 r2, reorder 4 vEx ordEx = some r1
      ∧ reorder_destructive 4 (fun m => (ordEx m : Int)) vEx = some r2
      ∧ ((List.range 4).map r1.1).Perm ((List.range 4).map vEx)
      ∧ ((List.range 4).map r2.1).Perm ((List.range 4).map vEx) :=
  reorder_preserves_multiset (by decide) vEx

/-- C6: `reorder` returns the `order` buffer exactly as it received it — the
source contains no store into `order`, and the threaded state comes back
unchanged. -/
theorem reorder_leaves_order_unchanged {n : Nat} {ord : Nat → Nat} (h : BijOn ord n)
    (v : Nat → α) :
    ∃ r, reorder n v ord = some r ∧ r.2 = ord :=
  ⟨_, reorder_spec h v, rfl⟩

/-- C6 witness: the frame claim at the example permutation and sequence. -/
theorem C6_witness : ∃ r, reorder 4 vEx ordEx = some r ∧ r.2 = ordEx :=
  reorder_leaves_order_unchanged (by decide) vEx

/-- C7 counterexample: with `a = [1, 1]` and `b = []`, the value `1` is
present in `a` and absent from `b` ("unique to `a`"), yet
`remove_intersection` removes both copies — elements unique to `a` are not
always preserved. -/
theorem C7_counterexample :
    remove_intersection ([1, 1] : List Int) ([] : List Int) = ([], [])
    ∧ (1 : Int) ∈ ([1, 1] : List Int) ∧ (1 : Int) ∉ ([] : List Int) :=
  ⟨by decide, by decide, by decide⟩

/-- C7 (amended): after `remove_intersection a b` no value present in both
`a` and `b` survives in `a`; the result is a sublist of `a` (original
relative order preserved) whose members are exactly the values occurring
exactly once in `a` and not at all in `b`; and `b` is left unmodified. -/
theorem remove_intersection_spec [DecidableEq α] (a b : List α) :
    (∀ x, x ∈ a → x ∈ b → x ∉ (remove_intersection a b).1)
    ∧ (remove_intersection a b).1.Sublist a
    ∧ (∀ x, x ∈ (remove_intersection a b).1 ↔ x ∈ a ∧ a.count x = 1 ∧ x ∉ b)
    ∧ (remove_intersection a b).2 = b := by
  refine ⟨?_, remove_intersection_sublist a b, remove_intersection_mem a b, rfl⟩
  intro x hxa hxb hmem
  exact ((remove_intersection_mem a b x).mp hmem).2.2 hxb

/-- C7 witness: the documented example `a = [1,2,3,4]`, `b = [2,4,5]` yields
`a = [1,3]`, and the shared value `2` indeed does not survive. -/
theorem C7_witness :
    remove_intersection ([1, 2, 3, 4] : List Int) [2, 4, 5] = ([1, 3], [2, 4, 5])
    ∧ (2 : Int) ∉ (remove_intersection ([1, 2, 3, 4] : List Int) [2, 4, 5]).1 :=
  ⟨by decide,
   (remove_intersection_spec ([1, 2, 3, 4] : List Int) [2, 4, 5]).1 2 (by decide) (by decide)⟩

/-- C8: `RemoveDuplicates` keeps exactly the positions whose value has not
appeared earlier (first occurrence kept, order preserved), returns the new
length, is the identity on duplicate-free input, and a second application is
a no-op. -/
theorem RemoveDuplicates_spec [DecidableEq α] [Inhabited α] (v : List α) :
    (RemoveDuplicates v).1
        = ((List.range v.length).filter (fun k => !decide (v[k]! ∈ v.take k))).map
            (fun k => v[k]!)
    ∧ (RemoveDuplicates v).2 = (RemoveDuplicates v).1.length
    ∧ (v.Nodup → RemoveDuplicates v = (v, v.length))
    ∧ RemoveDuplicates (RemoveDuplicates v).1 = RemoveDuplicates v := by
  refine ⟨?_, rfl, ?_, ?_⟩
  · exact removeDupsGo_eq_filter v [] [] (fun y => Iff.rfl)
  · intro hnd
    have h := removeDupsGo_of_nodup v [] hnd (fun x _ hx => (List.not_mem_nil x) hx)
    show (removeDupsGo v [], (removeDupsGo v []).length) = (v, v.length)
    rw [h]
  · have h := removeDupsGo_of_nodup (removeDupsGo v []) [] (removeDupsGo_nodup v [])
      (fun x _ hx => (List.not_mem_nil x) hx)
    show (removeDupsGo (removeDupsGo v []) [], (removeDupsGo (removeDupsGo v []) []).length)
      = (removeDupsGo v [], (removeDupsGo v []).length)
    rw [h]

/-- C8 witness: `RemoveDuplicates [1,2,1,3,2] = ([1,2,3], 3)` and on the
duplicate-free `[4, 5]` the call is the identity. -/
theorem C8_witness :
    RemoveDuplicates ([1, 2, 1, 3, 2] : List Int) = ([1, 2, 3], 3)
    ∧ RemoveDuplicates ([4, 5] : List Int) = ([4, 5], 2) :=
  ⟨by decide, (RemoveDuplicates_spec ([4, 5] : List Int)).2.2.1 (by decide)⟩

/-- C9: on a valid bijective permutation of matching length both applicators
run to completion — the fuelled embeddings of their cycle-walking loops reach
their exit conditions and return a result. -/
theorem applicators_terminate {n : Nat} {ord : Nat → Nat} (h : BijOn ord n)
    (v : Nat → α) :
    (reorder n v ord).isSome = true
    ∧ (reorder_destructive n (fun m => (ord m : Int)) v).isSome = true := by
  constructor
  · rw [reorder_spec h v]
    rfl
  · obtain ⟨V, Ord, hrun, _⟩ := reorder_destructive_spec n
      (fun m => (ord m : Int))
      (fun m _ => Int.natCast_nonneg _)
      (fun m hm => by
        show ((ord m : Nat) : Int) < (n : Int)
        exact_mod_cast h.1 m hm)
      (fun i hi j hj heq => by
        apply h.2 i hi j hj
        have heq' : ((ord i : Nat) : Int) = ((ord j : Nat) : Int) := heq
        exact_mod_cast heq') v
    rw [hrun]
    rfl

/-- C9 witness: termination at the example permutation and sequence. -/
theorem C9_witness :
    (reorder 4 vEx ordEx).isSome = true
    ∧ (reorder_destructive 4 (fun m => (ordEx m : Int)) vEx).isSome = true :=
  applicators_terminate (by decide) vEx

/-- C10: for a valid bijective permutation of matching length,
`reorder_destructive` succeeds and the element that was at position `i` ends
at position `order i` (`v'[order[i]] = v_old[i]`) — the scatter convention,
inverse to `reorder`'s gather. -/
theorem reorder_destructive_scatters {n : Nat} {order : Nat → Int}
    (hpos : ∀ m, m < n → 0 ≤ order m) (hlt : ∀ m, m < n → order m < n)
    (hinj : ∀ i, i < n → ∀ j, j < n → order i = order j → i = j) (v : Nat → α) :
    ∃ r, reorder_destructive n order v = some r
      ∧ ∀ i, i < n → r.1 (order i).toNat = v i := by
  obtain ⟨V, Ord, hrun, hVa, _, _⟩ := reorder_destructive_spec n order hpos hlt hinj v
  exact ⟨(V, Ord), hrun, hVa⟩

/-- C10 witness: `reorder_destructive([2,0,3,1], [1,2,3,4])` yields
`[2,4,1,3]`, the scatter of the input. -/
theorem C10_witness :
    (∃ r, reorder_destructive 4 ordExI vEx = some r
      ∧ ∀ i, i < 4 → r.1 (ordExI i).toNat = vEx i)
    ∧ (reorder_destructive 4 ordExI vEx).map (fun r => [r.1 0, r.1 1, r.1 2, r.1 3])
        = some [2, 4, 1, 3] :=
  ⟨reorder_destructive_scatters (by decide) (by decide) (by decide) vEx, by decide⟩

end Vec
